import Mathlib

/-!
Verification development for the afragop72/maths repository: a collection of
client-side algebra visualizers.  We give a shallow embedding of the pure math
utilities of the repository and prove/refute the specification claims about
them.

Conventions of the embedding:
* JavaScript numbers are modelled as exact reals (`ℝ`) for the closed-form
  root/vertex/coordinate formulas (the claims are stated "over exact real
  arithmetic"), and as rationals (`ℚ`) for the fraction and parsing utilities
  (every JS float is a rational; the proved invariants are independent of
  rounding).
* `NaN` results are modelled with `Option` (`none` = non-finite).
* DOM side effects (CSS class toggling, rendering) are dropped; only the
  returned values are modelled.

Namespaces:
* `QE`   – src/quadratic-equation/app.js
* `CTS`  – src/algebra/quadratics/completing-the-square/app.jsx
* `SBF`  – src/sketch-binomial-factors/app.jsx
* `P000` – src/unnamed/part_000
* `P002` – src/unnamed/part_002
-/

/-- Shared Euclidean loop `while (b) { [a, b] = [b, a % b] }` that appears
verbatim inside the `gcd` helpers of part_000, part_002 and the
completing-the-square app. -/
def euclidLoop (a b : ℕ) : ℕ :=
  if h : b = 0 then a else euclidLoop b (a % b)
termination_by b
decreasing_by exact Nat.mod_lt a (Nat.pos_of_ne_zero h)

/-- JS `Number.isInteger`, on the rational model of JS numbers. -/
def isInteger (q : ℚ) : Bool := q.den = 1

/-- Reduced-fraction record `{ n, d, isDecimal }` used by part_000 and
part_002.  Fields are JS numbers, modelled as `ℚ`. -/
structure JsFrac where
  n : ℚ
  d : ℚ
  isDecimal : Bool

/-- The `for (let d = 2; d <= 20; d++)` small-denominator search common to the
`toFraction` functions of part_000 and part_002: it returns the first
`d ∈ [2, 20]` (with `n = Math.round(decimal * d)`) whose fraction `n / d` is
within `1e-10` of `decimal`.  The reduction by the per-file `gcd` is applied at
each call site, as in the sources. -/
def smallDenSearch (dec : ℚ) : Option (ℤ × ℕ) :=
  (List.range' 2 19).findSome? (fun (d : ℕ) =>
    let n := round (dec * (d : ℚ))
    if |dec - (n : ℚ) / (d : ℚ)| < 1 / 10 ^ 10 then some (n, d) else none)

namespace QE

/-- evaluateQuadratic from src/quadratic-equation/app.js. -/
noncomputable def evaluateQuadratic (a b c x : ℝ) : ℝ := a * x * x + b * x + c

/-- getVertex from src/quadratic-equation/app.js.  The `a === 0` branch
returns `{ x: NaN, y: NaN }` in the source, modelled as `none`. -/
noncomputable def getVertex (a b c : ℝ) : Option (ℝ × ℝ) :=
  if a = 0 then none
  else
    let x := -b / (2 * a)
    some (x, evaluateQuadratic a b c x)

/-- getRoots from src/quadratic-equation/app.js (lines 168-184). -/
noncomputable def getRoots (a b c : ℝ) : List ℝ :=
  if a = 0 then
    if b = 0 then [] else [-c / b]
  else
    let disc := b * b - 4 * a * c
    if disc < 0 then []
    else if disc = 0 then [-b / (2 * a)]
    else
      let sqrtDisc := Real.sqrt disc
      [(-b + sqrtDisc) / (2 * a), (-b - sqrtDisc) / (2 * a)]

/-- Viewport bounds rectangle `{ xMin, xMax, yMin, yMax }`. -/
structure Bounds where
  xMin : ℝ
  xMax : ℝ
  yMin : ℝ
  yMax : ℝ

/-- The `padding` constant (line 55 of src/quadratic-equation/app.js). -/
noncomputable def padding : ℝ := 50

/-- toScreen from src/quadratic-equation/app.js (lines 186-196).  `cw` and
`ch` are `canvas.width` and `canvas.height`, fixed by the page's markup (not
under src/), hence taken as parameters of the model. -/
noncomputable def toScreen (cw ch : ℝ) (x y : ℝ) (bounds : Bounds) : ℝ × ℝ :=
  let width := cw - padding * 2
  let height := ch - padding * 2
  let xr := (x - bounds.xMin) / (bounds.xMax - bounds.xMin)
  let yr := (y - bounds.yMin) / (bounds.yMax - bounds.yMin)
  (padding + xr * width, ch - padding - yr * height)

/-- toMath from src/quadratic-equation/app.js (lines 198-208). -/
noncomputable def toMath (cw ch : ℝ) (screenX screenY : ℝ) (bounds : Bounds) : ℝ × ℝ :=
  let width := cw - padding * 2
  let height := ch - padding * 2
  let xr := (screenX - padding) / width
  let yr := (ch - padding - screenY) / height
  (bounds.xMin + xr * (bounds.xMax - bounds.xMin),
   bounds.yMin + yr * (bounds.yMax - bounds.yMin))

/-- clampRange from src/quadratic-equation/app.js (lines 137-145). -/
noncomputable def clampRange (mn mx : ℝ) : ℝ × ℝ :=
  if mn = mx then (mn - 1, mx + 1)
  else if mn > mx then (mx, mn)
  else (mn, mx)

/-- JS strings are modelled as lists of characters (so that the model is
executable); `trim` drops whitespace from both ends, as in JS. -/
def jsTrim (s : List Char) : List Char :=
  (((s.dropWhile Char.isWhitespace).reverse).dropWhile Char.isWhitespace).reverse

/-- parseFraction from src/quadratic-equation/app.js (lines 102-120).
`pf` abstracts `Number.parseFloat`; `pf s = none` models a parse whose result
is not a finite number (`NaN` or an infinity), `pf s = some v` a finite
result `v`.  `value.split("/")` on the single-character separator is
`List.splitOn` (both yield `[""]` on the empty string). -/
def parseFraction (pf : List Char → Option ℚ) (raw : List Char) : Option ℚ :=
  let value := jsTrim raw
  if value = [] then none
  else if value.contains ('/') = false then pf value
  else
    match (value.splitOn ('/')).map jsTrim with
    | [ns, ds] =>
      match pf ns, pf ds with
      | some numerator, some denominator =>
          if denominator = 0 then none else some (numerator / denominator)
      | _, _ => none
    | _ => none

/-- parseValue from src/quadratic-equation/app.js (lines 122-135).  The
source reads `input.value` (a string) and toggles a CSS class as a side
effect; only the returned value is modelled. -/
def parseValue (pf : List Char → Option ℚ) (value : List Char) (fallback : ℚ) : ℚ :=
  match parseFraction pf value with
  | some v => v
  | none => fallback

end QE

namespace CTS

/-- evaluateQuadratic from completing-the-square/app.jsx (same body as in
src/quadratic-equation/app.js), over an arbitrary field so that it can be
used both at `ℝ` (exact-arithmetic claims) and at `ℚ` (app-state claims). -/
def evaluateQuadratic {α : Type} [Field α] (a b c x : α) : α := a * x * x + b * x + c

/-- getDiscriminant from completing-the-square/app.jsx. -/
def getDiscriminant {α : Type} [Field α] (a b c : α) : α := b * b - 4 * a * c

/-- getRoots from completing-the-square/app.jsx (lines 31-43): same as the
quadratic-equation version except that `|disc| < 1e-12` is treated as the
one-root case and the two roots are sorted ascending
(`[r1, r2].sort((x, y) => x - y)`). -/
noncomputable def getRoots (a b c : ℝ) : List ℝ :=
  if a = 0 then
    if b = 0 then [] else [-c / b]
  else
    let disc := getDiscriminant a b c
    if disc < 0 then []
    else if |disc| < 1 / 10 ^ 12 then [-b / (2 * a)]
    else
      let sqrtDisc := Real.sqrt disc
      let r1 := (-b - sqrtDisc) / (2 * a)
      let r2 := (-b + sqrtDisc) / (2 * a)
      if r1 ≤ r2 then [r1, r2] else [r2, r1]

/-- getVertex from completing-the-square/app.jsx (lines 45-50); the `a === 0`
branch returns `{ x: NaN, y: NaN }`, modelled as `none`. -/
noncomputable def getVertex (a b c : ℝ) : Option (ℝ × ℝ) :=
  if a = 0 then none
  else
    let x := -b / (2 * a)
    some (x, evaluateQuadratic a b c x)

/-- gcd from completing-the-square/app.jsx (lines 54-59): absolute values,
Euclidean loop, then `return a || 1`. -/
def gcd (a b : ℤ) : ℕ :=
  let g := euclidLoop a.natAbs b.natAbs
  if g = 0 then 1 else g

/-- Reduced fraction `{ n, d }` produced by `Q`; `irrational` marks the
decimal fallback for non-integer inputs. -/
structure Frac where
  n : ℚ
  d : ℚ
  irrational : Bool

/-- Q from completing-the-square/app.jsx (lines 65-73).  The call
`gcd(Math.abs(num), Math.abs(den))` passes integer-valued numbers, so the
outer `Math.abs` is absorbed by the `natAbs` inside `gcd`. -/
def Q (num den : ℚ) : Frac :=
  if den = 0 then ⟨0, 1, false⟩
  else if !(isInteger num) || !(isInteger den) then ⟨num / den, 1, true⟩
  else
    let sign : ℚ := if den < 0 then -1 else 1
    let g : ℕ := gcd num.num den.num
    ⟨sign * num / (g : ℚ), |den| / (g : ℚ), false⟩

/-- Numeric fields of the record returned by getCompletingSteps
(completing-the-square/app.jsx, lines 135-153).  The exact-fraction display
fields `pF` … `remainderF` (values of `Q`, used only by formatters) are not
modelled. -/
structure CompletingSteps (α : Type) where
  p : α
  halfP : α
  halfPSq : α
  h : α
  k : α

/-- getCompletingSteps from completing-the-square/app.jsx (numeric part). -/
def getCompletingSteps {α : Type} [Field α] (a b c : α) : CompletingSteps α :=
  let p := b / a
  let halfP := p / 2
  let halfPSq := halfP * halfP
  let h := -halfP
  let k := c - a * halfPSq
  ⟨p, halfP, halfPSq, h, k⟩

/-- The static error message of the App component
(completing-the-square/app.jsx, line 1248). -/
def errorMessage : String := "The leading coefficient a must be non-zero for a quadratic."

/-- The `error` value of the App component: present iff the numeric leading
coefficient is zero. -/
def appError (numA : ℚ) : Option String :=
  if numA = 0 then some (errorMessage) else none

/-- The `cs` memo of the App component: `null` when `numA === 0`, otherwise
the completing-the-square steps. -/
def appCs (numA numB numC : ℚ) : Option (CompletingSteps ℚ) :=
  if numA = 0 then none else some (getCompletingSteps numA numB numC)

/-- The `content` memo of the App component: `null` when `cs` is `null`,
otherwise `getStepContent(step, numA, numB, numC, cs)`.  `f` abstracts
`getStepContent` (pure JSX construction) applied at the current step. -/
def appContent {σ : Type} (numA numB numC : ℚ) (f : CompletingSteps ℚ → σ) : Option σ :=
  (appCs numA numB numC).map f

end CTS

namespace SBF

/-- A parsed linear binomial `a·x + b` (`parseBinomial` output), as consumed
by `computeFoil`. -/
structure Binomial where
  a : ℝ
  b : ℝ
  varName : String

/-- Result record of computeFoil; the `expanded` display string
(`polyToString`) is not modelled. -/
structure FoilResult where
  varName : String
  a : ℝ
  b : ℝ
  c : ℝ
  d : ℝ
  ac : ℝ
  ad : ℝ
  bc : ℝ
  bd : ℝ
  A : ℝ
  B : ℝ
  C : ℝ

/-- computeFoil from src/sketch-binomial-factors/app.jsx (lines 148-166). -/
noncomputable def computeFoil (p q : Binomial) : FoilResult :=
  let a := p.a
  let b := p.b
  let c := q.a
  let d := q.b
  let ac := a * c
  let ad := a * d
  let bc := b * c
  let bd := b * d
  ⟨p.varName, a, b, c, d, ac, ad, bc, bd, ac, ad + bc, bd⟩

end SBF

namespace P000

/-- gcd from src/unnamed/part_000 (lines 18-31): the bare Euclidean loop (no
absolute value, no fallback).  All of its call sites pass nonnegative
integers, so it is modelled on `ℕ`. -/
def gcd (a b : ℕ) : ℕ := euclidLoop a b

/-- The continued-fraction loop of toFraction in src/unnamed/part_000
(lines 49-66), with its 100-iteration bound as fuel.  In the source the
return guard `Math.abs(decimal - h1 / k1) < 1e-9` is false whenever `k1 = 0`
(the JS division yields an infinity or `NaN`), hence the explicit `k1' ≠ 0`
conjunct; the final `isFinite` break corresponds to `x - ⌊x⌋ = 0`. -/
def cfLoop (sign dec : ℚ) (maxDenominator : ℤ) :
    ℕ → ℚ → ℤ → ℤ → ℤ → ℤ → JsFrac
  | 0, _, _, _, _, _ => ⟨sign * dec, 1, true⟩
  | fuel + 1, x, h1, h2, k1, k2 =>
    let a := ⌊x⌋
    let h1' := a * h1 + h2
    let k1' := a * k1 + k2
    if maxDenominator < k1' then ⟨sign * dec, 1, true⟩
    else if k1' ≠ 0 ∧ |dec - (h1' : ℚ) / (k1' : ℚ)| < 1 / 10 ^ 9 then
      let g := gcd h1'.natAbs k1'.natAbs
      ⟨sign * ((h1' : ℚ) / (g : ℚ)), (k1' : ℚ) / (g : ℚ), false⟩
    else if x - (a : ℚ) = 0 then ⟨sign * dec, 1, true⟩
    else cfLoop sign dec maxDenominator fuel (1 / (x - (a : ℚ))) h1' h1 k1' k1

/-- toFraction from src/unnamed/part_000 (lines 33-72).  The source's default
argument `maxDenominator = 100` is passed explicitly by callers of the model.
In the small-denominator branch the source calls `gcd(n, d)` with `n ≥ 0`, so
the `natAbs` cast is the identity there. -/
def toFraction (decimal : ℚ) (maxDenominator : ℤ) : JsFrac :=
  let sign : ℚ := if decimal < 0 then -1 else 1
  let dec := |decimal|
  if |dec - (round dec : ℚ)| < 1 / 10 ^ 10 then ⟨sign * (round dec : ℚ), 1, false⟩
  else
    match smallDenSearch dec with
    | some (n, d) =>
      let g := gcd n.natAbs d
      ⟨sign * ((n : ℚ) / (g : ℚ)), (d : ℚ) / (g : ℚ), false⟩
    | none => cfLoop sign dec maxDenominator 100 dec 1 0 0 1

end P000

namespace P002

/-- gcd from src/unnamed/part_002 (lines 1469-1474): absolute values,
Euclidean loop, then `return a || 1` (identical to the completing-the-square
gcd). -/
def gcd (a b : ℤ) : ℕ :=
  let g := euclidLoop a.natAbs b.natAbs
  if g = 0 then 1 else g

/-- The continued-fraction loop of toFraction in src/unnamed/part_002
(lines 1517-1539), with its 100-iteration bound as fuel; `none` means the
loop fell through to the last-resort search.  As in part_000, the JS return
guard is false when `den = 0`, hence the explicit conjunct, and the final
`isFinite` break corresponds to `n - ⌊n⌋ = 0`. -/
def cfLoop (sign dec : ℚ) (maxDenominator : ℤ) :
    ℕ → ℚ → ℤ → ℤ → ℤ → ℤ → Option JsFrac
  | 0, _, _, _, _, _ => none
  | i + 1, n, a, b, c, d =>
    let digit := ⌊n⌋
    let num := a + digit * c
    let den := b + digit * d
    if maxDenominator < den then none
    else if den ≠ 0 ∧ |dec - (num : ℚ) / (den : ℚ)| < 1 / 10 ^ 10 then
      let g := gcd num den
      some ⟨sign * ((num : ℚ) / (g : ℚ)), (den : ℚ) / (g : ℚ), false⟩
    else if |n - (digit : ℚ)| < 1 / 10 ^ 10 then none
    else if n - (digit : ℚ) = 0 then none
    else cfLoop sign dec maxDenominator i (1 / (n - (digit : ℚ))) c d num den

/-- The last-resort search of toFraction in src/unnamed/part_002
(lines 1541-1555): scan denominators `2 … maxDenominator`, keeping the best
`(num, den, error)` with `error < 0.001`. -/
def lastResortLoop (dec : ℚ) (maxDenominator : ℕ) (init : ℤ × ℕ × ℚ) : ℤ × ℕ × ℚ :=
  (List.range' 2 (maxDenominator - 1)).foldl
    (fun (best : ℤ × ℕ × ℚ) (den : ℕ) =>
      let num := round (dec * (den : ℚ))
      let error := |dec - (num : ℚ) / (den : ℚ)|
      if error < best.2.2 ∧ error < 1 / 1000 then (num, den, error) else best)
    init

/-- toFraction from src/unnamed/part_002 (lines 1497-1562).  The source's
leading `!isFinite(decimal)` branch cannot fire on the rational model and is
omitted; the default argument `maxDenominator = 1000` is passed explicitly by
callers of the model. -/
def toFraction (decimal : ℚ) (maxDenominator : ℕ) : JsFrac :=
  if |decimal - (round decimal : ℚ)| < 1 / 10 ^ 10 then ⟨(round decimal : ℚ), 1, false⟩
  else
    let sign : ℚ := if decimal < 0 then -1 else 1
    let dec := |decimal|
    match smallDenSearch dec with
    | some (n, d) =>
      let g := gcd n d
      ⟨sign * ((n : ℚ) / (g : ℚ)), (d : ℚ) / (g : ℚ), false⟩
    | none =>
      match cfLoop sign dec (maxDenominator : ℤ) 100 dec 0 1 1 0 with
      | some f => f
      | none =>
        let bestNum := round dec
        let r := lastResortLoop dec maxDenominator (bestNum, 1, |dec - (bestNum : ℚ)|)
        if r.2.2 < 1 / 1000 then
          let g := gcd r.1 (r.2.1 : ℤ)
          ⟨sign * ((r.1 : ℚ) / (g : ℚ)), (r.2.1 : ℚ) / (g : ℚ), false⟩
        else ⟨sign * dec, 1, true⟩

/-- makeFraction from src/unnamed/part_002 (lines 1477-1495).  The source's
default argument `den = 1` is passed explicitly by callers of the model; the
call `gcd(Math.abs(num), Math.abs(den))` passes integer-valued numbers, so
the outer `Math.abs` is absorbed by the `natAbs` inside `gcd`. -/
def makeFraction (num den : ℚ) : JsFrac :=
  if den = 0 then ⟨0, 1, false⟩
  else
    let num' := if den < 0 then -num else num
    let den' := if den < 0 then -den else den
    if !(isInteger num') || !(isInteger den') then toFraction (num' / den') 1000
    else
      let g := gcd num'.num den'.num
      ⟨num' / (g : ℚ), den' / (g : ℚ), false⟩

end P002

/-! ### Helper lemmas -/

theorem euclidLoop_eq_gcd (a b : ℕ) : euclidLoop a b = Nat.gcd b a := by
  induction b using Nat.strong_induction_on generalizing a with
  | _ b ih =>
    rw [euclidLoop]
    split
    · next h => simp [h]
    · next h =>
      rw [ih (a % b) (Nat.mod_lt a (Nat.pos_of_ne_zero h)), ← Nat.gcd_rec]

/-- Division bound used for all the `d = den / g` reductions: `k / g ≥ 1` in
`ℚ` as soon as `0 < g ≤ k`. -/
theorem one_le_cast_div (k : ℤ) (g : ℕ) (hg : 0 < g) (hk : (g : ℤ) ≤ k) :
    (1 : ℚ) ≤ (k : ℚ) / (g : ℚ) := by
  have hg' : (0 : ℚ) < (g : ℚ) := by exact_mod_cast hg
  rw [le_div_iff₀ hg', one_mul]
  exact_mod_cast hk

/-! ### Claim theorems -/

/-- C5: FOIL expansion correctness: for every pair of parsed linear binomials
`p = a·x + b` and `q = c·x + d`, `computeFoil p q` computes exactly the four
scalar products `ac, ad, bc, bd` and returns coefficients `A = a·c`,
`B = a·d + b·c`, `C = b·d` with `A·x² + B·x + C = (a·x + b)·(c·x + d)` for
every real `x`. -/
theorem C5_computeFoil_correct (p q : SBF.Binomial) (x : ℝ) :
    (SBF.computeFoil p q).ac = p.a * q.a ∧
    (SBF.computeFoil p q).ad = p.a * q.b ∧
    (SBF.computeFoil p q).bc = p.b * q.a ∧
    (SBF.computeFoil p q).bd = p.b * q.b ∧
    (SBF.computeFoil p q).A = p.a * q.a ∧
    (SBF.computeFoil p q).B = p.a * q.b + p.b * q.a ∧
    (SBF.computeFoil p q).C = p.b * q.b ∧
    (SBF.computeFoil p q).A * x ^ 2 + (SBF.computeFoil p q).B * x + (SBF.computeFoil p q).C
      = (p.a * x + p.b) * (q.a * x + q.b) := by
  refine ⟨rfl, rfl, rfl, rfl, rfl, rfl, rfl, ?_⟩
  show p.a * q.a * x ^ 2 + (p.a * q.b + p.b * q.a) * x + p.b * q.b = _
  ring

/-- C10: implicit range sanitization: `clampRange` always returns a pair
`(lo, hi)` with `lo < hi` (equal inputs widened to `(min − 1, max + 1)`,
inverted inputs swapped), so the x-extent of the bounds later passed to
`toScreen`/`toMath` is never zero. -/
theorem C10_clampRange_safe (mn mx : ℝ) :
    (QE.clampRange mn mx).1 < (QE.clampRange mn mx).2 ∧
    (QE.clampRange mn mx).2 - (QE.clampRange mn mx).1 ≠ 0 ∧
    (mn = mx → QE.clampRange mn mx = (mn - 1, mx + 1)) ∧
    (mn > mx → QE.clampRange mn mx = (mx, mn)) ∧
    (mn < mx → QE.clampRange mn mx = (mn, mx)) := by
  unfold QE.clampRange
  rcases lt_trichotomy mn mx with h | h | h
  · rw [if_neg (ne_of_lt h), if_neg (not_lt.mpr (le_of_lt h))]
    exact ⟨h, sub_ne_zero.mpr (ne_of_gt h), fun he => absurd he (ne_of_lt h),
      fun hg => absurd hg (not_lt.mpr (le_of_lt h)), fun _ => rfl⟩
  · rw [if_pos h]
    exact ⟨by rw [h]; show mx - 1 < mx + 1; linarith,
      by rw [h]; show mx + 1 - (mx - 1) ≠ 0; intro hc; linarith, fun _ => rfl,
      fun hg => absurd hg (by simp [h]), fun hl => absurd hl (by simp [h])⟩
  · rw [if_neg (ne_of_gt h), if_pos h]
    exact ⟨h, sub_ne_zero.mpr (ne_of_gt h), fun he => absurd he (ne_of_gt h),
      fun _ => rfl, fun hl => absurd hl (not_lt.mpr (le_of_lt h))⟩

/-- Witness for C10 at concrete inputs: equal inputs are widened, inverted
inputs are swapped. -/
theorem C10_witness :
    QE.clampRange (1 : ℝ) 1 = (1 - 1, 1 + 1) ∧ QE.clampRange (3 : ℝ) 2 = (2, 3) :=
  ⟨(C10_clampRange_safe 1 1).2.2.1 rfl, (C10_clampRange_safe 3 2).2.2.2.1 (by norm_num)⟩

/-- C9: in the completing-the-square app, the static error message is
produced iff the numeric coefficient `a` is zero, and in exactly that case
the completing-the-square steps are not computed (`cs` and the step content
are `null`). -/
theorem C9_zero_leading_coeff {σ : Type} (numA numB numC : ℚ)
    (f : CTS.CompletingSteps ℚ → σ) :
    (CTS.appError numA = some (CTS.errorMessage) ↔ numA = 0) ∧
    (numA = 0 → CTS.appCs numA numB numC = none ∧ CTS.appContent numA numB numC f = none) ∧
    (numA ≠ 0 → CTS.appError numA = none ∧
      CTS.appCs numA numB numC = some (CTS.getCompletingSteps numA numB numC)) := by
  by_cases h : numA = 0
  · simp [CTS.appError, CTS.appCs, CTS.appContent, h]
  · simp [CTS.appError, CTS.appCs, CTS.appContent, h]

/-- Witness for C9 at `a = 0` and at `a = 1`. -/
theorem C9_witness :
    CTS.appError 0 = some (CTS.errorMessage) ∧
    CTS.appCs 0 1 2 = none ∧
    CTS.appContent 0 1 2 (id : CTS.CompletingSteps ℚ → CTS.CompletingSteps ℚ) = none ∧
    CTS.appError 1 = none := by
  have h0 := C9_zero_leading_coeff 0 1 2 (id : CTS.CompletingSteps ℚ → CTS.CompletingSteps ℚ)
  have h1 := C9_zero_leading_coeff 1 1 2 (id : CTS.CompletingSteps ℚ → CTS.CompletingSteps ℚ)
  exact ⟨h0.1.mpr rfl, (h0.2.1 rfl).1, (h0.2.1 rfl).2, (h1.2.2 (by norm_num)).1⟩

/-- C6: vertex-form identity and turning point: for `a ≠ 0` the numeric
values computed by `getCompletingSteps` satisfy `h = −b/(2a)`,
`k = (4ac − b²)/(4a)`, the identity `a(x − h)² + k = ax² + bx + c` for every
`x`, `(h, k)` is exactly the point returned by `getVertex`, and it is the
turning point: for `a > 0` the minimum, for `a < 0` the maximum of the
quadratic. -/
theorem C6_vertex_form (a b c : ℝ) (ha : a ≠ 0) :
    (CTS.getCompletingSteps a b c).h = -b / (2 * a) ∧
    (CTS.getCompletingSteps a b c).k = (4 * a * c - b * b) / (4 * a) ∧
    (∀ x : ℝ, a * (x - (CTS.getCompletingSteps a b c).h) ^ 2 + (CTS.getCompletingSteps a b c).k
      = a * x ^ 2 + b * x + c) ∧
    CTS.getVertex a b c
      = some ((CTS.getCompletingSteps a b c).h, (CTS.getCompletingSteps a b c).k) ∧
    (0 < a → ∀ x : ℝ,
      CTS.evaluateQuadratic a b c ((CTS.getCompletingSteps a b c).h)
        ≤ CTS.evaluateQuadratic a b c x) ∧
    (a < 0 → ∀ x : ℝ,
      CTS.evaluateQuadratic a b c x
        ≤ CTS.evaluateQuadratic a b c ((CTS.getCompletingSteps a b c).h)) := by
  have hh : (CTS.getCompletingSteps a b c).h = -b / (2 * a) := by
    show -(b / a / 2) = -b / (2 * a)
    rw [div_div, neg_div, mul_comm]
  have hk : (CTS.getCompletingSteps a b c).k = (4 * a * c - b * b) / (4 * a) := by
    show c - a * (b / a / 2 * (b / a / 2)) = _
    field_simp
    ring
  have hdiff : ∀ x : ℝ,
      CTS.evaluateQuadratic a b c x
        - CTS.evaluateQuadratic a b c ((CTS.getCompletingSteps a b c).h)
      = a * (x - (CTS.getCompletingSteps a b c).h) ^ 2 := by
    intro x
    rw [hh]
    show a * x * x + b * x + c - (a * (-b / (2 * a)) * (-b / (2 * a)) + b * (-b / (2 * a)) + c)
      = _
    field_simp
    ring
  refine ⟨hh, hk, ?_, ?_, ?_, ?_⟩
  · intro x
    rw [hh, hk]
    field_simp
    ring
  · unfold CTS.getVertex
    rw [if_neg ha]
    show some (-b / (2 * a), CTS.evaluateQuadratic a b c (-b / (2 * a))) = _
    rw [← hh]
    have : CTS.evaluateQuadratic a b c ((CTS.getCompletingSteps a b c).h)
        = (CTS.getCompletingSteps a b c).k := by
      rw [hh, hk]
      show a * (-b / (2 * a)) * (-b / (2 * a)) + b * (-b / (2 * a)) + c = _
      field_simp
      ring
    rw [this]
  · intro hpos x
    have h1 := hdiff x
    nlinarith [sq_nonneg (x - (CTS.getCompletingSteps a b c).h)]
  · intro hneg x
    have h1 := hdiff x
    nlinarith [sq_nonneg (x - (CTS.getCompletingSteps a b c).h)]

/-- Witness for C6 at `a = 1, b = 2, c = 3`. -/
theorem C6_witness :
    (CTS.getCompletingSteps (1 : ℝ) 2 3).h = -2 / (2 * 1) ∧
    (CTS.getCompletingSteps (1 : ℝ) 2 3).k = (4 * 1 * 3 - 2 * 2) / (4 * 1) ∧
    CTS.getVertex (1 : ℝ) 2 3
      = some ((CTS.getCompletingSteps (1 : ℝ) 2 3).h, (CTS.getCompletingSteps (1 : ℝ) 2 3).k) ∧
    CTS.evaluateQuadratic (1 : ℝ) 2 3 ((CTS.getCompletingSteps (1 : ℝ) 2 3).h)
      ≤ CTS.evaluateQuadratic (1 : ℝ) 2 3 5 := by
  have h := C6_vertex_form 1 2 3 (by norm_num)
  exact ⟨h.1, h.2.1, h.2.2.2.1, h.2.2.2.2.1 (by norm_num) 5⟩

/-- C7: coordinate-mapping round trip: with nondegenerate bounds (and the
fixed page canvas having a nonzero drawable extent `cw − 2·padding`,
`ch − 2·padding`), `toMath` applied to the result of `toScreen` with the same
bounds returns the original point exactly. -/
theorem C7_round_trip (cw ch : ℝ) (bounds : QE.Bounds) (x y : ℝ)
    (hw : cw - QE.padding * 2 ≠ 0) (hh : ch - QE.padding * 2 ≠ 0)
    (hx : bounds.xMax ≠ bounds.xMin) (hy : bounds.yMax ≠ bounds.yMin) :
    QE.toMath cw ch (QE.toScreen cw ch x y bounds).1 (QE.toScreen cw ch x y bounds).2 bounds
      = (x, y) := by
  have hx' : bounds.xMax - bounds.xMin ≠ 0 := sub_ne_zero.mpr hx
  have hy' : bounds.yMax - bounds.yMin ≠ 0 := sub_ne_zero.mpr hy
  unfold QE.toMath QE.toScreen
  simp only [Prod.mk.injEq]
  constructor
  · field_simp
    ring
  · field_simp
    ring

/-- Witness for C7 at a concrete canvas, bounds and point. -/
theorem C7_witness :
    QE.toMath 800 600
      (QE.toScreen 800 600 1 2 ⟨-5, 5, -4, 4⟩).1
      (QE.toScreen 800 600 1 2 ⟨-5, 5, -4, 4⟩).2 ⟨-5, 5, -4, 4⟩ = (1, 2) := by
  have hp : QE.padding = (50 : ℝ) := rfl
  exact C7_round_trip 800 600 ⟨-5, 5, -4, 4⟩ 1 2
    (by rw [hp]; norm_num) (by rw [hp]; norm_num) (by norm_num) (by norm_num)

/-! ### Root-finding: branch evaluation lemmas -/

theorem QE_getRoots_neg (a b c : ℝ) (ha : a ≠ 0) (hd : b * b - 4 * a * c < 0) :
    QE.getRoots a b c = [] := by
  simp only [QE.getRoots, if_neg ha]
  rw [if_pos hd]

theorem QE_getRoots_zero (a b c : ℝ) (ha : a ≠ 0) (hd : b * b - 4 * a * c = 0) :
    QE.getRoots a b c = [-b / (2 * a)] := by
  simp only [QE.getRoots, if_neg ha]
  rw [if_neg (by rw [hd]; exact lt_irrefl 0), if_pos hd]

theorem QE_getRoots_pos (a b c : ℝ) (ha : a ≠ 0) (hd : 0 < b * b - 4 * a * c) :
    QE.getRoots a b c
      = [(-b + Real.sqrt (b * b - 4 * a * c)) / (2 * a),
         (-b - Real.sqrt (b * b - 4 * a * c)) / (2 * a)] := by
  simp only [QE.getRoots, if_neg ha]
  rw [if_neg (not_lt.mpr (le_of_lt hd)), if_neg (ne_of_gt hd)]

theorem QE_getRoots_lin (b c : ℝ) (hb : b ≠ 0) : QE.getRoots 0 b c = [-c / b] := by
  simp [QE.getRoots, hb]

theorem QE_getRoots_null (c : ℝ) : QE.getRoots 0 0 c = [] := by
  simp [QE.getRoots]

theorem CTS_getRoots_neg (a b c : ℝ) (ha : a ≠ 0) (hd : b * b - 4 * a * c < 0) :
    CTS.getRoots a b c = [] := by
  simp only [CTS.getRoots, CTS.getDiscriminant, if_neg ha]
  rw [if_pos hd]

theorem CTS_getRoots_small (a b c : ℝ) (ha : a ≠ 0) (hd0 : ¬b * b - 4 * a * c < 0)
    (hd : |b * b - 4 * a * c| < 1 / 10 ^ 12) :
    CTS.getRoots a b c = [-b / (2 * a)] := by
  simp only [CTS.getRoots, CTS.getDiscriminant, if_neg ha]
  rw [if_neg hd0, if_pos hd]

theorem CTS_getRoots_big (a b c : ℝ) (ha : a ≠ 0) (hd0 : ¬b * b - 4 * a * c < 0)
    (hd : ¬|b * b - 4 * a * c| < 1 / 10 ^ 12) :
    CTS.getRoots a b c
      = if (-b - Real.sqrt (b * b - 4 * a * c)) / (2 * a)
            ≤ (-b + Real.sqrt (b * b - 4 * a * c)) / (2 * a)
        then [(-b - Real.sqrt (b * b - 4 * a * c)) / (2 * a),
              (-b + Real.sqrt (b * b - 4 * a * c)) / (2 * a)]
        else [(-b + Real.sqrt (b * b - 4 * a * c)) / (2 * a),
              (-b - Real.sqrt (b * b - 4 * a * c)) / (2 * a)] := by
  simp only [CTS.getRoots, CTS.getDiscriminant, if_neg ha]
  rw [if_neg hd0, if_neg hd]

/-- Evaluation of the quadratic at `(-b + s) / (2a)` for any square root `s`
of the discriminant. -/
theorem root_eval (a b c s : ℝ) (ha : a ≠ 0) (hs : s * s = b * b - 4 * a * c) :
    a * ((-b + s) / (2 * a)) ^ 2 + b * ((-b + s) / (2 * a)) + c = 0 := by
  have expand : a * ((-b + s) / (2 * a)) ^ 2 + b * ((-b + s) / (2 * a)) + c
      = (s * s - (b * b - 4 * a * c)) / (4 * a) := by
    field_simp
    ring
  rw [expand, hs, sub_self, zero_div]

/-- The two roots returned in the positive-discriminant branch are distinct. -/
theorem roots_distinct (a b c : ℝ) (ha : a ≠ 0) (hd : 0 < b * b - 4 * a * c) :
    (-b + Real.sqrt (b * b - 4 * a * c)) / (2 * a)
      ≠ (-b - Real.sqrt (b * b - 4 * a * c)) / (2 * a) := by
  have hs : 0 < Real.sqrt (b * b - 4 * a * c) := Real.sqrt_pos.mpr hd
  intro heq
  have h2a : (2 : ℝ) * a ≠ 0 := mul_ne_zero two_ne_zero ha
  rw [div_eq_div_iff h2a h2a] at heq
  have : Real.sqrt (b * b - 4 * a * c) * (2 * a) = 0 := by linarith [heq]
  rcases mul_eq_zero.mp this with h | h
  · exact absurd h (ne_of_gt hs)
  · exact absurd h h2a

/-- C1: root-finding correctness of `getRoots` in quadratic-equation/app.js:
with `a ≠ 0` and nonnegative discriminant every returned value is a root of
`a·x² + b·x + c`; with `a = 0, b ≠ 0` the single returned value `−c/b` solves
`b·x + c = 0`; with `a = b = 0` the list is empty. -/
theorem C1_getRoots_satisfy_equation :
    (∀ a b c : ℝ, a ≠ 0 → 0 ≤ b * b - 4 * a * c →
      ∀ r ∈ QE.getRoots a b c, a * r ^ 2 + b * r + c = 0) ∧
    (∀ b c : ℝ, b ≠ 0 → QE.getRoots 0 b c = [-c / b] ∧ b * (-c / b) + c = 0) ∧
    (∀ c : ℝ, QE.getRoots 0 0 c = []) := by
  refine ⟨?_, ?_, ?_⟩
  · intro a b c ha hd r hr
    rcases eq_or_lt_of_le hd with heq | hlt
    · rw [QE_getRoots_zero a b c ha heq.symm] at hr
      simp only [List.mem_singleton] at hr
      subst hr
      have h0 := root_eval a b c 0 ha (by rw [← heq]; ring)
      simpa using h0
    · rw [QE_getRoots_pos a b c ha hlt] at hr
      have hs : Real.sqrt (b * b - 4 * a * c) * Real.sqrt (b * b - 4 * a * c)
          = b * b - 4 * a * c := Real.mul_self_sqrt (le_of_lt hlt)
      simp only [List.mem_cons, List.mem_singleton, List.not_mem_nil, or_false] at hr
      rcases hr with h | h
      · subst h
        exact root_eval a b c (Real.sqrt (b * b - 4 * a * c)) ha hs
      · subst h
        have h0 := root_eval a b c (-(Real.sqrt (b * b - 4 * a * c))) ha
          (by rw [neg_mul_neg]; exact hs)
        have harg : -b + -(Real.sqrt (b * b - 4 * a * c))
            = -b - Real.sqrt (b * b - 4 * a * c) := by ring
        rw [harg] at h0
        exact h0
  · intro b c hb
    refine ⟨QE_getRoots_lin b c hb, ?_⟩
    field_simp
    ring
  · exact QE_getRoots_null

/-- Witness for C1: for `x² − 4` the returned root `2` solves the equation;
for `2x + 6` the returned list is `[−6/2]`. -/
theorem C1_witness :
    (1 : ℝ) ≠ 0 ∧ (0 : ℝ) ≤ 0 * 0 - 4 * 1 * (-4) ∧ (2 : ℝ) ≠ 0 ∧
    (1 : ℝ) * 2 ^ 2 + 0 * 2 + (-4) = 0 ∧ QE.getRoots 0 2 6 = [-6 / 2] := by
  have hs : Real.sqrt (0 * 0 - 4 * 1 * (-4) : ℝ) = 4 := by
    rw [show (0 * 0 - 4 * 1 * (-4) : ℝ) = 4 ^ 2 by norm_num]
    exact Real.sqrt_sq (by norm_num)
  have hmem : (2 : ℝ) ∈ QE.getRoots 1 0 (-4) := by
    rw [QE_getRoots_pos 1 0 (-4) (by norm_num) (by norm_num), hs]
    norm_num
  exact ⟨by norm_num, by norm_num, by norm_num,
    C1_getRoots_satisfy_equation.1 1 0 (-4) (by norm_num) (by norm_num) 2 hmem,
    (C1_getRoots_satisfy_equation.2.1 2 6 (by norm_num)).1⟩

/-- C2 counterexample: for the completing-the-square implementation, at
`a = 1, b = 0, c = −10⁻¹³` the discriminant is `4·10⁻¹³ > 0`, yet (over exact
arithmetic) the returned list has exactly one element, not two — the
`|disc| < 1e-12` branch fires.  This refutes "exactly two distinct roots iff
`b² − 4ac > 0`" for that implementation. -/
theorem C2_counterexample :
    (0 : ℝ) < 0 * 0 - 4 * 1 * (-(1 / 10 ^ 13)) ∧
    (CTS.getRoots 1 0 (-(1 / 10 ^ 13))).length = 1 := by
  constructor
  · norm_num
  · rw [CTS_getRoots_small 1 0 (-(1 / 10 ^ 13)) (by norm_num) (by norm_num)
      (by rw [abs_of_pos (by norm_num)]; norm_num)]
    rfl

/-- C2 (amended): the discriminant determines the number of real roots.  For
`getRoots` of quadratic-equation/app.js the law holds exactly as claimed:
zero roots iff `disc < 0`, one iff `disc = 0`, two distinct iff `disc > 0`.
For the completing-the-square variant (over exact real arithmetic): zero
roots iff `disc < 0`, one root iff `0 ≤ disc < 1e-12`, two distinct roots iff
`disc ≥ 1e-12`. -/
theorem C2_discriminant_root_count :
    (∀ a b c : ℝ, a ≠ 0 →
      (((QE.getRoots a b c).length = 0 ↔ b * b - 4 * a * c < 0) ∧
       ((QE.getRoots a b c).length = 1 ↔ b * b - 4 * a * c = 0) ∧
       (((QE.getRoots a b c).length = 2 ∧ (QE.getRoots a b c).Nodup)
          ↔ 0 < b * b - 4 * a * c))) ∧
    (∀ a b c : ℝ, a ≠ 0 →
      (((CTS.getRoots a b c).length = 0 ↔ b * b - 4 * a * c < 0) ∧
       ((CTS.getRoots a b c).length = 1
          ↔ 0 ≤ b * b - 4 * a * c ∧ b * b - 4 * a * c < 1 / 10 ^ 12) ∧
       (((CTS.getRoots a b c).length = 2 ∧ (CTS.getRoots a b c).Nodup)
          ↔ 1 / 10 ^ 12 ≤ b * b - 4 * a * c))) := by
  constructor
  · intro a b c ha
    rcases lt_trichotomy (b * b - 4 * a * c) 0 with h | h | h
    · rw [QE_getRoots_neg a b c ha h]
      exact ⟨iff_of_true rfl h,
        iff_of_false (by simp) (fun h0 => absurd h0 (ne_of_lt h)),
        iff_of_false (by simp) (not_lt.mpr (le_of_lt h))⟩
    · rw [QE_getRoots_zero a b c ha h]
      exact ⟨iff_of_false (by simp) (by rw [h]; exact lt_irrefl 0),
        iff_of_true rfl h,
        iff_of_false (by simp) (by rw [h]; exact lt_irrefl 0)⟩
    · rw [QE_getRoots_pos a b c ha h]
      exact ⟨iff_of_false (by simp) (not_lt.mpr (le_of_lt h)),
        iff_of_false (by simp) (fun h0 => absurd h0 (ne_of_gt h)),
        iff_of_true ⟨rfl, by simp [roots_distinct a b c ha h]⟩ h⟩
  · intro a b c ha
    by_cases h1 : b * b - 4 * a * c < 0
    · rw [CTS_getRoots_neg a b c ha h1]
      exact ⟨iff_of_true rfl h1,
        iff_of_false (by simp) (fun hc => absurd h1 (not_lt.mpr hc.1)),
        iff_of_false (by simp) (fun hc => absurd h1 (by intro; linarith))⟩
    · by_cases h2 : b * b - 4 * a * c < 1 / 10 ^ 12
      · have habs : |b * b - 4 * a * c| < 1 / 10 ^ 12 := by
          rw [abs_of_nonneg (not_lt.mp h1)]
          exact h2
        rw [CTS_getRoots_small a b c ha h1 habs]
        exact ⟨iff_of_false (by simp) h1,
          iff_of_true rfl ⟨not_lt.mp h1, h2⟩,
          iff_of_false (by simp) (fun hc => absurd h2 (not_lt.mpr hc))⟩
      · have hge : 1 / 10 ^ 12 ≤ b * b - 4 * a * c := not_lt.mp h2
        have hpos : 0 < b * b - 4 * a * c := lt_of_lt_of_le (by norm_num) hge
        have habs : ¬|b * b - 4 * a * c| < 1 / 10 ^ 12 := by
          rw [abs_of_nonneg (not_lt.mp h1)]
          exact h2
        rw [CTS_getRoots_big a b c ha h1 habs]
        have hne := roots_distinct a b c ha hpos
        refine ⟨iff_of_false (by split_ifs <;> simp) h1,
          iff_of_false (by split_ifs <;> simp) (fun hc => absurd hge (not_le.mpr hc.2)),
          iff_of_true ⟨by split_ifs <;> rfl, ?_⟩ hge⟩
        split_ifs
        · exact List.nodup_cons.mpr ⟨by simp [Ne.symm hne], List.nodup_singleton _⟩
        · exact List.nodup_cons.mpr ⟨by simp [hne], List.nodup_singleton _⟩

/-- Witness for C2 (amended) at `x² − 4` for both implementations: the
discriminant `16 ≥ 1e-12` yields two distinct roots. -/
theorem C2_witness :
    (1 : ℝ) ≠ 0 ∧
    ((QE.getRoots 1 0 (-4)).length = 2 ∧ (QE.getRoots 1 0 (-4)).Nodup) ∧
    ((CTS.getRoots 1 0 (-4)).length = 2 ∧ (CTS.getRoots 1 0 (-4)).Nodup) := by
  refine ⟨by norm_num, ?_, ?_⟩
  · exact ((C2_discriminant_root_count.1 1 0 (-4) (by norm_num)).2.2).mpr (by norm_num)
  · exact ((C2_discriminant_root_count.2 1 0 (-4) (by norm_num)).2.2).mpr (by norm_num)

/-- C3: fraction reduction to lowest terms: for integers `num`, `den` with
`den ≠ 0`, `Q num den` returns a pair `{n, d}` of integers with `d > 0`,
`gcd(|n|, d) = 1` and `n / d = num / den` as rational numbers. -/
theorem C3_Q_lowest_terms (num den : ℤ) (hden : den ≠ 0) :
    ∃ n d : ℤ,
      (CTS.Q (num : ℚ) (den : ℚ)).n = (n : ℚ) ∧
      (CTS.Q (num : ℚ) (den : ℚ)).d = (d : ℚ) ∧
      0 < d ∧ Nat.gcd n.natAbs d.natAbs = 1 ∧
      (n : ℚ) / (d : ℚ) = (num : ℚ) / (den : ℚ) := by
  have hdenQ : (den : ℚ) ≠ 0 := Int.cast_ne_zero.mpr hden
  have hint : (!(isInteger (num : ℚ)) || !(isInteger (den : ℚ))) = false := by
    simp [isInteger, Rat.den_intCast]
  have hgpos : 0 < Nat.gcd num.natAbs den.natAbs :=
    Nat.gcd_pos_of_pos_right _ (Int.natAbs_pos.mpr hden)
  have hgcdval : CTS.gcd ((num : ℚ)).num ((den : ℚ)).num = Nat.gcd num.natAbs den.natAbs := by
    rw [Rat.num_intCast, Rat.num_intCast]
    simp only [CTS.gcd]
    rw [euclidLoop_eq_gcd, Nat.gcd_comm, if_neg (Nat.pos_iff_ne_zero.mp hgpos)]
  have hQ : CTS.Q (num : ℚ) (den : ℚ)
      = ⟨(if (den : ℚ) < 0 then (-1 : ℚ) else 1) * (num : ℚ)
            / ((Nat.gcd num.natAbs den.natAbs : ℕ) : ℚ),
         |(den : ℚ)| / ((Nat.gcd num.natAbs den.natAbs : ℕ) : ℚ), false⟩ := by
    simp only [CTS.Q, if_neg hdenQ, hint, Bool.false_eq_true, if_false]
    rw [hgcdval]
  set g : ℕ := Nat.gcd num.natAbs den.natAbs with hgdef
  have hgQ : ((g : ℕ) : ℚ) ≠ 0 := by
    exact_mod_cast Nat.pos_iff_ne_zero.mp hgpos
  have hdvd_num : ((g : ℕ) : ℤ) ∣ num :=
    Int.dvd_natAbs.mp (Int.natCast_dvd_natCast.mpr (Nat.gcd_dvd_left _ _))
  have hdvd_den : ((g : ℕ) : ℤ) ∣ den :=
    Int.dvd_natAbs.mp (Int.natCast_dvd_natCast.mpr (Nat.gcd_dvd_right _ _))
  obtain ⟨m, hm⟩ := hdvd_num
  obtain ⟨e, he⟩ := hdvd_den
  have hene : e ≠ 0 := by
    intro h0
    exact hden (by rw [he, h0, mul_zero])
  have hgabs : ((g : ℕ) : ℤ).natAbs = g := Int.natAbs_ofNat g
  have hmabs : m.natAbs = num.natAbs / g := by
    rw [hm, Int.natAbs_mul, hgabs]
    exact (Nat.mul_div_cancel_left _ hgpos).symm
  have heabs : e.natAbs = den.natAbs / g := by
    rw [he, Int.natAbs_mul, hgabs]
    exact (Nat.mul_div_cancel_left _ hgpos).symm
  refine ⟨(if den < 0 then -1 else 1) * m, |e|, ?_, ?_, ?_, ?_, ?_⟩
  · rw [hQ]
    show (if (den : ℚ) < 0 then (-1 : ℚ) else 1) * (num : ℚ) / ((g : ℕ) : ℚ) = _
    by_cases hlt : den < 0
    · rw [if_pos (by exact_mod_cast hlt : (den : ℚ) < 0), hm]
      rw [if_pos hlt]
      push_cast
      field_simp
      try ring
    · rw [if_neg (fun hc => hlt (by exact_mod_cast hc : den < 0)), hm]
      rw [if_neg hlt]
      push_cast
      field_simp
      try ring
  · rw [hQ]
    show |(den : ℚ)| / ((g : ℕ) : ℚ) = _
    rw [he]
    push_cast
    rw [abs_mul, abs_of_nonneg (by positivity : (0 : ℚ) ≤ ((g : ℕ) : ℚ))]
    field_simp
    try ring
  · exact abs_pos.mpr hene
  · have h1 : ((if den < 0 then (-1 : ℤ) else 1) * m).natAbs = m.natAbs := by
      by_cases hlt : den < 0
      · rw [if_pos hlt]
        simp [Int.natAbs_mul]
      · rw [if_neg hlt]
        simp
    have h2 : (|e|).natAbs = e.natAbs := Int.natAbs_abs e
    rw [h1, h2, hmabs, heabs]
    exact Nat.coprime_div_gcd_div_gcd hgpos
  · have hdQ : ((|e| : ℤ) : ℚ) ≠ 0 := by
      exact_mod_cast abs_ne_zero.mpr hene
    rw [div_eq_div_iff hdQ hdenQ]
    have hcross : (if den < 0 then (-1 : ℤ) else 1) * m * den = num * |e| := by
      by_cases hlt : den < 0
      · have hepos : e < 0 := by
          by_contra hc
          push_neg at hc
          have : 0 ≤ den := by
            rw [he]
            positivity
          omega
        rw [if_pos hlt, abs_of_neg hepos, hm, he]
        ring
      · have hepos : 0 ≤ e := by
          by_contra hc
          push_neg at hc
          have hdenneg : den < 0 := by
            rw [he]
            have hgz : (0 : ℤ) < ((g : ℕ) : ℤ) := by exact_mod_cast hgpos
            exact mul_neg_of_pos_of_neg hgz hc
          exact hlt hdenneg
        rw [if_neg hlt, abs_of_nonneg hepos, hm, he]
        ring
    exact_mod_cast hcross

/-- Witness for C3 at `num = 6`, `den = −4` (reduced to `−3/2`). -/
theorem C3_witness :
    (-4 : ℤ) ≠ 0 ∧
    ∃ n d : ℤ,
      (CTS.Q ((6 : ℤ) : ℚ) ((-4 : ℤ) : ℚ)).n = (n : ℚ) ∧
      (CTS.Q ((6 : ℤ) : ℚ) ((-4 : ℤ) : ℚ)).d = (d : ℚ) ∧
      0 < d ∧ Nat.gcd n.natAbs d.natAbs = 1 ∧
      (n : ℚ) / (d : ℚ) = ((6 : ℤ) : ℚ) / ((-4 : ℤ) : ℚ) :=
  ⟨by decide, C3_Q_lowest_terms 6 (-4) (by decide)⟩

/-- C8: non-finite parse fallback: `parseValue` returns the fallback exactly
when `parseFraction` of the string is not a finite number — which includes
the empty (trimmed) string, a malformed fraction with other than two
'/'-separated parts, and a fraction whose denominator parses to `0` — and
otherwise returns the finite parsed value itself. -/
theorem C8_parse_fallback (pf : List Char → Option ℚ) (raw : List Char) (fallback : ℚ) :
    (QE.parseFraction pf raw = none → QE.parseValue pf raw fallback = fallback) ∧
    (∀ v, QE.parseFraction pf raw = some v → QE.parseValue pf raw fallback = v) ∧
    (QE.jsTrim raw = [] → QE.parseFraction pf raw = none) ∧
    (((QE.jsTrim raw).splitOn ('/')).map QE.jsTrim ≠ [] →
      (((QE.jsTrim raw).splitOn ('/')).map QE.jsTrim).length ≠ 2 →
      (QE.jsTrim raw).contains ('/') = true →
      QE.parseFraction pf raw = none) ∧
    (∀ ns ds, ((QE.jsTrim raw).splitOn ('/')).map QE.jsTrim = [ns, ds] →
      (QE.jsTrim raw).contains ('/') = true →
      pf ds = some 0 → QE.parseFraction pf raw = none) := by
  refine ⟨?_, ?_, ?_, ?_, ?_⟩
  · intro h
    simp [QE.parseValue, h]
  · intro v h
    simp [QE.parseValue, h]
  · intro h
    simp [QE.parseFraction, h]
  · intro hnil hlen hc
    have hc' : '/' ∈ QE.jsTrim raw := by simpa using hc
    by_cases hv : QE.jsTrim raw = []
    · simp [QE.parseFraction, hv]
    · cases hl : ((QE.jsTrim raw).splitOn ('/')).map QE.jsTrim with
      | nil => simp [QE.parseFraction, hv, hc', hl]
      | cons a t =>
        cases t with
        | nil => simp [QE.parseFraction, hv, hc', hl]
        | cons b t2 =>
          cases t2 with
          | nil => exact absurd (by rw [hl]; rfl) hlen
          | cons u t3 => simp [QE.parseFraction, hv, hc', hl]
  · intro ns ds hl hc hds
    have hc' : '/' ∈ QE.jsTrim raw := by simpa using hc
    by_cases hv : QE.jsTrim raw = []
    · simp [QE.parseFraction, hv]
    · cases hn : pf ns with
      | none => simp [QE.parseFraction, hv, hc', hl, hds, hn]
      | some v => simp [QE.parseFraction, hv, hc', hl, hds, hn]

/-- Witness for C8: the empty input falls back, and a plain parsed value is
returned as-is. -/
theorem C8_witness :
    QE.parseFraction (fun _ => (none : Option ℚ)) [] = none ∧
    QE.parseValue (fun _ => (none : Option ℚ)) [] 7 = 7 ∧
    QE.parseValue (fun _ => some 5) (['3']) 7 = 5 := by
  have h := C8_parse_fallback (fun _ => (none : Option ℚ)) [] 7
  have hnone : QE.parseFraction (fun _ => (none : Option ℚ)) [] = none := h.2.2.1 (by decide)
  have h2 := C8_parse_fallback (fun _ => (some (5 : ℚ))) (['3']) 7
  exact ⟨hnone, h.1 hnone, h2.2.1 5 (by decide)⟩

theorem one_le_div_rat (q g : ℚ) (hg : 0 < g) (h : g ≤ q) : 1 ≤ q / g := by
  rw [le_div_iff₀ hg, one_mul]
  exact h

theorem CTS_gcd_pos (a b : ℤ) : 0 < CTS.gcd a b := by
  simp only [CTS.gcd]
  split
  · exact Nat.one_pos
  · next h => exact Nat.pos_of_ne_zero h

theorem CTS_gcd_dvd_right (a b : ℤ) (hb : b ≠ 0) : (CTS.gcd a b : ℤ) ∣ b := by
  have hge : euclidLoop a.natAbs b.natAbs = Nat.gcd b.natAbs a.natAbs := euclidLoop_eq_gcd _ _
  have hnz : Nat.gcd b.natAbs a.natAbs ≠ 0 :=
    Nat.pos_iff_ne_zero.mp (Nat.gcd_pos_of_pos_left _ (Int.natAbs_pos.mpr hb))
  have : CTS.gcd a b = Nat.gcd b.natAbs a.natAbs := by
    simp only [CTS.gcd, hge]
    rw [if_neg hnz]
  rw [this]
  exact Int.dvd_natAbs.mp (Int.natCast_dvd_natCast.mpr (Nat.gcd_dvd_left _ _))

theorem P002_gcd_eq_CTS_gcd (a b : ℤ) : P002.gcd a b = CTS.gcd a b := rfl

theorem smallDenSearch_bounds (dec : ℚ) (n : ℤ) (d : ℕ)
    (h : smallDenSearch dec = some (n, d)) : 2 ≤ d := by
  obtain ⟨a, ha, hf⟩ := List.exists_of_findSome?_eq_some h
  have ha' : 2 ≤ a := by
    have := List.mem_range'.mp ha
    omega
  by_cases hc : |dec - ((round (dec * (a : ℚ)) : ℤ) : ℚ) / (a : ℚ)| < 1 / 10 ^ 10
  · rw [if_pos hc] at hf
    injection hf with hf'
    have : a = d := congrArg Prod.snd hf'
    omega
  · rw [if_neg hc] at hf
    exact absurd hf (by simp)

theorem lastResort_foldl_ge_one (dec : ℚ) (l : List ℕ) (hl : ∀ x ∈ l, 1 ≤ x) :
    ∀ init : ℤ × ℕ × ℚ, 1 ≤ init.2.1 →
      1 ≤ (l.foldl
        (fun (best : ℤ × ℕ × ℚ) (den : ℕ) =>
          let num := round (dec * (den : ℚ))
          let error := |dec - (num : ℚ) / (den : ℚ)|
          if error < best.2.2 ∧ error < 1 / 1000 then (num, den, error) else best)
        init).2.1 := by
  induction l with
  | nil => intro init hinit; exact hinit
  | cons x t ih =>
    intro init hinit
    simp only [List.foldl_cons]
    apply ih (fun y hy => hl y (List.mem_cons_of_mem _ hy))
    split
    · exact hl x (List.mem_cons_self _ _)
    · exact hinit

theorem P000_gcd_eq (a b : ℕ) : P000.gcd a b = Nat.gcd b a := euclidLoop_eq_gcd a b

theorem P000_cfLoop_d_ge_one (sign dec : ℚ) (maxD : ℤ) :
    ∀ (fuel : ℕ) (x : ℚ) (h1 h2 k1 k2 : ℤ), 0 < x → 0 ≤ k1 → 0 ≤ k2 →
      1 ≤ (P000.cfLoop sign dec maxD fuel x h1 h2 k1 k2).d := by
  intro fuel
  induction fuel with
  | zero =>
    intro x h1 h2 k1 k2 _ _ _
    simp [P000.cfLoop]
  | succ i ih =>
    intro x h1 h2 k1 k2 hx hk1 hk2
    simp only [P000.cfLoop]
    have hfloor : 0 ≤ ⌊x⌋ := Int.floor_nonneg.mpr (le_of_lt hx)
    have hk1' : 0 ≤ ⌊x⌋ * k1 + k2 := by positivity
    split
    · norm_num
    · split
      · next hcond =>
        show 1 ≤ ((⌊x⌋ * k1 + k2 : ℤ) : ℚ)
            / ((P000.gcd (⌊x⌋ * h1 + h2).natAbs (⌊x⌋ * k1 + k2).natAbs : ℕ) : ℚ)
        have hne : ⌊x⌋ * k1 + k2 ≠ 0 := hcond.1
        have hgval : P000.gcd (⌊x⌋ * h1 + h2).natAbs (⌊x⌋ * k1 + k2).natAbs
            = Nat.gcd (⌊x⌋ * k1 + k2).natAbs (⌊x⌋ * h1 + h2).natAbs := P000_gcd_eq _ _
        have hgpos : 0 < Nat.gcd (⌊x⌋ * k1 + k2).natAbs (⌊x⌋ * h1 + h2).natAbs :=
          Nat.gcd_pos_of_pos_left _ (Int.natAbs_pos.mpr hne)
        have hdvd : ((Nat.gcd (⌊x⌋ * k1 + k2).natAbs (⌊x⌋ * h1 + h2).natAbs : ℕ) : ℤ)
            ∣ ⌊x⌋ * k1 + k2 :=
          Int.dvd_natAbs.mp (Int.natCast_dvd_natCast.mpr (Nat.gcd_dvd_left _ _))
        have hle : ((Nat.gcd (⌊x⌋ * k1 + k2).natAbs (⌊x⌋ * h1 + h2).natAbs : ℕ) : ℤ)
            ≤ ⌊x⌋ * k1 + k2 :=
          Int.le_of_dvd (lt_of_le_of_ne hk1' (Ne.symm hne)) hdvd
        rw [hgval]
        apply one_le_div_rat
        · exact_mod_cast hgpos
        · exact_mod_cast hle
      · split
        · norm_num
        · next hne0 =>
          apply ih
          · have hfr : 0 ≤ x - (⌊x⌋ : ℚ) := by
              have := Int.floor_le x
              linarith
            have : 0 < x - (⌊x⌋ : ℚ) := lt_of_le_of_ne hfr (Ne.symm hne0)
            positivity
          · exact hk1'
          · exact hk1

theorem P000_toFraction_d_ge_one (x : ℚ) (maxD : ℤ) : 1 ≤ (P000.toFraction x maxD).d := by
  have core : ∀ sign : ℚ, 0 < |x| →
      1 ≤ (match smallDenSearch |x| with
            | some (n, d) =>
              ({ n := sign * ((n : ℚ) / ((P000.gcd n.natAbs d : ℕ) : ℚ)),
                 d := (d : ℚ) / ((P000.gcd n.natAbs d : ℕ) : ℚ), isDecimal := false } : JsFrac)
            | none => P000.cfLoop sign |x| maxD 100 |x| 1 0 0 1).d := by
    intro sign hxpos
    cases hsd : smallDenSearch |x| with
    | some nd =>
      obtain ⟨n, d⟩ := nd
      have hd2 : 2 ≤ d := smallDenSearch_bounds _ _ _ hsd
      show 1 ≤ (d : ℚ) / ((P000.gcd n.natAbs d : ℕ) : ℚ)
      have hgval : P000.gcd n.natAbs d = Nat.gcd d n.natAbs := P000_gcd_eq _ _
      have hgpos : 0 < Nat.gcd d n.natAbs := Nat.gcd_pos_of_pos_left _ (by omega)
      have hle : Nat.gcd d n.natAbs ≤ d := Nat.le_of_dvd (by omega) (Nat.gcd_dvd_left _ _)
      rw [hgval]
      apply one_le_div_rat
      · exact_mod_cast hgpos
      · exact_mod_cast hle
    | none =>
      show 1 ≤ (P000.cfLoop sign |x| maxD 100 |x| 1 0 0 1).d
      exact P000_cfLoop_d_ge_one _ _ _ 100 _ 1 0 0 1 hxpos le_rfl (by norm_num)
  by_cases hs : x < 0
  · simp only [P000.toFraction, if_pos hs]
    split
    · norm_num
    · next hint =>
      have hxpos : 0 < |x| := abs_pos.mpr (ne_of_lt hs)
      exact core (-1) hxpos
  · simp only [P000.toFraction, if_neg hs]
    split
    · norm_num
    · next hint =>
      have hxpos : 0 < |x| := by
        rcases eq_or_ne x 0 with rfl | hne
        · exact absurd (by norm_num) hint
        · exact abs_pos.mpr hne
      exact core 1 hxpos

theorem P002_gcd_pos (a b : ℤ) : 0 < P002.gcd a b := CTS_gcd_pos a b

theorem P002_gcd_dvd_right (a b : ℤ) (hb : b ≠ 0) : (P002.gcd a b : ℤ) ∣ b :=
  CTS_gcd_dvd_right a b hb

theorem P002_cfLoop_d_ge_one (sign dec : ℚ) (maxD : ℤ) :
    ∀ (fuel : ℕ) (n : ℚ) (a b w d : ℤ), 0 < n → 0 ≤ b → 0 ≤ d →
      ∀ f, P002.cfLoop sign dec maxD fuel n a b w d = some f → 1 ≤ f.d := by
  intro fuel
  induction fuel with
  | zero =>
    intro n a b w d _ _ _ f hf
    exact absurd hf (by simp [P002.cfLoop])
  | succ i ih =>
    intro n a b w d hn hb hd f hf
    simp only [P002.cfLoop] at hf
    have hfloor : 0 ≤ ⌊n⌋ := Int.floor_nonneg.mpr (le_of_lt hn)
    have hden0 : 0 ≤ b + ⌊n⌋ * d := by positivity
    split at hf
    · exact absurd hf (by simp)
    · split at hf
      · next hcond =>
        injection hf with hf'
        subst hf'
        show 1 ≤ ((b + ⌊n⌋ * d : ℤ) : ℚ)
            / ((P002.gcd (a + ⌊n⌋ * w) (b + ⌊n⌋ * d) : ℕ) : ℚ)
        have hne : b + ⌊n⌋ * d ≠ 0 := hcond.1
        have hgpos : 0 < P002.gcd (a + ⌊n⌋ * w) (b + ⌊n⌋ * d) := P002_gcd_pos _ _
        have hdvd := P002_gcd_dvd_right (a + ⌊n⌋ * w) (b + ⌊n⌋ * d) hne
        have hle : ((P002.gcd (a + ⌊n⌋ * w) (b + ⌊n⌋ * d) : ℕ) : ℤ) ≤ b + ⌊n⌋ * d :=
          Int.le_of_dvd (lt_of_le_of_ne hden0 (Ne.symm hne)) hdvd
        apply one_le_div_rat
        · exact_mod_cast hgpos
        · exact_mod_cast hle
      · split at hf
        · exact absurd hf (by simp)
        · split at hf
          · exact absurd hf (by simp)
          · next hne0 =>
            apply ih _ w d _ _ ?hpos hd hden0 f hf
            have hfr : 0 ≤ n - (⌊n⌋ : ℚ) := by
              have := Int.floor_le n
              linarith
            have : 0 < n - (⌊n⌋ : ℚ) := lt_of_le_of_ne hfr (Ne.symm hne0)
            positivity

theorem P002_lastResort_ge_one (dec : ℚ) (maxD : ℕ) (init : ℤ × ℕ × ℚ)
    (h : 1 ≤ init.2.1) : 1 ≤ (P002.lastResortLoop dec maxD init).2.1 := by
  unfold P002.lastResortLoop
  apply lastResort_foldl_ge_one
  · intro y hy
    have := List.mem_range'.mp hy
    omega
  · exact h

theorem P002_smallDen_branch (sign : ℚ) (x : ℚ) (n : ℤ) (d : ℕ) (hd2 : 2 ≤ d) :
    1 ≤ (d : ℚ) / ((P002.gcd n (d : ℤ) : ℕ) : ℚ) := by
  have hdne : (d : ℤ) ≠ 0 := by exact_mod_cast (by omega : d ≠ 0)
  have hgpos : 0 < P002.gcd n (d : ℤ) := P002_gcd_pos _ _
  have hdvd := P002_gcd_dvd_right n (d : ℤ) hdne
  have hle : ((P002.gcd n (d : ℤ) : ℕ) : ℤ) ≤ (d : ℤ) :=
    Int.le_of_dvd (by exact_mod_cast (by omega : 0 < d)) hdvd
  apply one_le_div_rat
  · exact_mod_cast hgpos
  · exact_mod_cast hle

theorem P002_div_branch (n : ℤ) (d : ℕ) (hd : 1 ≤ d) :
    1 ≤ (d : ℚ) / ((P002.gcd n (d : ℤ) : ℕ) : ℚ) := by
  have hdne : (d : ℤ) ≠ 0 := by exact_mod_cast (by omega : d ≠ 0)
  have hgpos : 0 < P002.gcd n (d : ℤ) := P002_gcd_pos _ _
  have hdvd := P002_gcd_dvd_right n (d : ℤ) hdne
  have hle : ((P002.gcd n (d : ℤ) : ℕ) : ℤ) ≤ (d : ℤ) :=
    Int.le_of_dvd (by exact_mod_cast (by omega : 0 < d)) hdvd
  apply one_le_div_rat
  · exact_mod_cast hgpos
  · exact_mod_cast hle

theorem P002_toFraction_eq_noninteger (x : ℚ) (maxD : ℕ)
    (h : ¬|x - ((round x : ℤ) : ℚ)| < 1 / 10 ^ 10) :
    P002.toFraction x maxD =
      match smallDenSearch |x| with
      | some (n, d) =>
        { n := (if x < 0 then (-1 : ℚ) else 1) * ((n : ℚ) / ((P002.gcd n (d : ℤ) : ℕ) : ℚ)),
          d := (d : ℚ) / ((P002.gcd n (d : ℤ) : ℕ) : ℚ), isDecimal := false }
      | none =>
        match P002.cfLoop (if x < 0 then (-1 : ℚ) else 1) |x| (maxD : ℤ) 100 |x| 0 1 1 0 with
        | some f => f
        | none =>
          if (P002.lastResortLoop |x| maxD
                (round |x|, 1, |(|x|) - ((round |x| : ℤ) : ℚ)|)).2.2 < 1 / 1000 then
            { n := (if x < 0 then (-1 : ℚ) else 1)
                * (((P002.lastResortLoop |x| maxD
                      (round |x|, 1, |(|x|) - ((round |x| : ℤ) : ℚ)|)).1 : ℚ)
                  / ((P002.gcd (P002.lastResortLoop |x| maxD
                        (round |x|, 1, |(|x|) - ((round |x| : ℤ) : ℚ)|)).1
                      ((P002.lastResortLoop |x| maxD
                        (round |x|, 1, |(|x|) - ((round |x| : ℤ) : ℚ)|)).2.1 : ℤ) : ℕ) : ℚ)),
              d := ((P002.lastResortLoop |x| maxD
                      (round |x|, 1, |(|x|) - ((round |x| : ℤ) : ℚ)|)).2.1 : ℚ)
                  / ((P002.gcd (P002.lastResortLoop |x| maxD
                        (round |x|, 1, |(|x|) - ((round |x| : ℤ) : ℚ)|)).1
                      ((P002.lastResortLoop |x| maxD
                        (round |x|, 1, |(|x|) - ((round |x| : ℤ) : ℚ)|)).2.1 : ℤ) : ℕ) : ℚ),
              isDecimal := false }
          else { n := (if x < 0 then (-1 : ℚ) else 1) * |x|, d := 1, isDecimal := true } := by
  unfold P002.toFraction
  rw [if_neg h]

theorem P002_last_branch (sign dec : ℚ) (r : ℤ × ℕ × ℚ) (hr : 1 ≤ r.2.1) :
    1 ≤ (if r.2.2 < 1 / 1000 then
          ({ n := sign * ((r.1 : ℚ) / ((P002.gcd r.1 (r.2.1 : ℤ) : ℕ) : ℚ)),
             d := (r.2.1 : ℚ) / ((P002.gcd r.1 (r.2.1 : ℤ) : ℕ) : ℚ),
             isDecimal := false } : JsFrac)
         else { n := sign * dec, d := 1, isDecimal := true }).d := by
  split
  · exact P002_div_branch r.1 r.2.1 hr
  · norm_num

theorem P002_toFraction_d_ge_one (x : ℚ) (maxD : ℕ) : 1 ≤ (P002.toFraction x maxD).d := by
  by_cases hint : |x - ((round x : ℤ) : ℚ)| < 1 / 10 ^ 10
  · unfold P002.toFraction
    rw [if_pos hint]
  · have hxpos : 0 < |x| := by
      rcases eq_or_ne x 0 with rfl | hne
      · exact absurd (by norm_num) hint
      · exact abs_pos.mpr hne
    rw [P002_toFraction_eq_noninteger x maxD hint]
    cases hsd : smallDenSearch |x| with
    | some nd =>
      obtain ⟨n, d⟩ := nd
      have hd2 : 2 ≤ d := smallDenSearch_bounds _ _ _ hsd
      exact P002_div_branch n d (by omega)
    | none =>
      cases hcf : P002.cfLoop (if x < 0 then (-1 : ℚ) else 1) |x| (maxD : ℤ) 100 |x| 0 1 1 0 with
      | some f =>
        exact P002_cfLoop_d_ge_one _ |x| (maxD : ℤ) 100 |x| 0 1 1 0 hxpos
          (by norm_num) le_rfl f hcf
      | none =>
        exact P002_last_branch (if x < 0 then (-1 : ℚ) else 1) |x|
          (P002.lastResortLoop |x| maxD (round |x|, 1, |(|x|) - ((round |x| : ℤ) : ℚ)|))
          (P002_lastResort_ge_one |x| maxD
            (round |x|, 1, |(|x|) - ((round |x| : ℤ) : ℚ)|) le_rfl)

theorem rat_eq_num_of_isInteger (q : ℚ) (h : isInteger q = true) : ((q.num : ℤ) : ℚ) = q := by
  have hden : q.den = 1 := by simpa [isInteger] using h
  have hq := Rat.num_div_den q
  rw [hden] at hq
  simpa using hq

theorem CTS_Q_d_ge_one (num den : ℚ) : 1 ≤ (CTS.Q num den).d := by
  by_cases h0 : den = 0
  · unfold CTS.Q
    rw [if_pos h0]
  · unfold CTS.Q
    rw [if_neg h0]
    split
    · norm_num
    · next hcond =>
      show 1 ≤ |den| / ((CTS.gcd num.num den.num : ℕ) : ℚ)
      simp only [Bool.or_eq_true, Bool.not_eq_true', not_or, Bool.not_eq_false] at hcond
      have hbden : isInteger den = true := hcond.2
      have hdnum_ne : den.num ≠ 0 := Rat.num_ne_zero.mpr h0
      have hgpos := CTS_gcd_pos num.num den.num
      have hdvd := CTS_gcd_dvd_right num.num den.num hdnum_ne
      have hle : ((CTS.gcd num.num den.num : ℕ) : ℤ) ≤ |den.num| :=
        Int.le_of_dvd (abs_pos.mpr hdnum_ne) ((dvd_abs _ _).mpr hdvd)
      apply one_le_div_rat _ _ (by exact_mod_cast hgpos)
      have habs : |den| = ((|den.num| : ℤ) : ℚ) := by
        conv_lhs => rw [← rat_eq_num_of_isInteger den hbden]
        rw [Int.cast_abs]
      rw [habs]
      exact_mod_cast hle

theorem P002_makeFraction_eq (num den : ℚ) (h0 : den ≠ 0) :
    P002.makeFraction num den =
      if !(isInteger (if den < 0 then -num else num))
          || !(isInteger (if den < 0 then -den else den)) then
        P002.toFraction ((if den < 0 then -num else num) / (if den < 0 then -den else den)) 1000
      else
        { n := (if den < 0 then -num else num)
            / ((P002.gcd (if den < 0 then -num else num).num
                  (if den < 0 then -den else den).num : ℕ) : ℚ),
          d := (if den < 0 then -den else den)
            / ((P002.gcd (if den < 0 then -num else num).num
                  (if den < 0 then -den else den).num : ℕ) : ℚ),
          isDecimal := false } := by
  unfold P002.makeFraction
  rw [if_neg h0]

theorem P002_makeFraction_d_ge_one (num den : ℚ) : 1 ≤ (P002.makeFraction num den).d := by
  by_cases h0 : den = 0
  · unfold P002.makeFraction
    rw [if_pos h0]
  · rw [P002_makeFraction_eq num den h0]
    set num' : ℚ := if den < 0 then -num else num with hnum'
    set den' : ℚ := if den < 0 then -den else den with hden'
    have hden'pos : 0 < den' := by
      rw [hden']
      split
      · next h => linarith
      · next h => exact lt_of_le_of_ne (not_lt.mp h) (Ne.symm h0)
    split
    · exact P002_toFraction_d_ge_one _ 1000
    · next hcond =>
      simp only [Bool.or_eq_true, Bool.not_eq_true', not_or, Bool.not_eq_false] at hcond
      have hbden : isInteger den' = true := hcond.2
      have hdnum_pos : 0 < den'.num := Rat.num_pos.mpr hden'pos
      have hgpos := P002_gcd_pos num'.num den'.num
      have hdvd := P002_gcd_dvd_right num'.num den'.num (by omega)
      have hle : ((P002.gcd num'.num den'.num : ℕ) : ℤ) ≤ den'.num :=
        Int.le_of_dvd hdnum_pos hdvd
      show 1 ≤ den' / ((P002.gcd num'.num den'.num : ℕ) : ℚ)
      apply one_le_div_rat _ _ (by exact_mod_cast hgpos)
      conv_rhs => rw [← rat_eq_num_of_isInteger den' hbden]
      exact_mod_cast hle

/-- C4: nonzero-denominator invariant: every reduced-fraction value produced
by the constructors `Q` (completing-the-square), `makeFraction` and
`toFraction` (part_000 and part_002) — for every rational input, including a
denominator argument of 0 — has denominator field `d ≥ 1` (in particular
`d ≠ 0`), so no fraction with a zero denominator is ever constructed or
passed to a formatter. -/
theorem C4_denominator_invariant :
    (∀ num den : ℚ, 1 ≤ (CTS.Q num den).d) ∧
    (∀ num den : ℚ, 1 ≤ (P002.makeFraction num den).d) ∧
    (∀ (x : ℚ) (maxD : ℤ), 1 ≤ (P000.toFraction x maxD).d) ∧
    (∀ (x : ℚ) (maxD : ℕ), 1 ≤ (P002.toFraction x maxD).d) :=
  ⟨CTS_Q_d_ge_one, P002_makeFraction_d_ge_one, P000_toFraction_d_ge_one,
    P002_toFraction_d_ge_one⟩
